import Mathlib

/-!
Verification of `src/backend/port/atomics.c`: the spinlock-based fallback
implementation of 64-bit atomics (`pg_atomic_init_u64_impl`,
`pg_atomic_compare_exchange_u64_impl`, `pg_atomic_fetch_add_u64_impl`) and
the emulated barriers (`pg_spinlock_barrier`, `pg_extern_compiler_barrier`).

Modelling conventions:
* `uint64` values are `Nat`; the one place C arithmetic can wrap
  (`ptr->value += add_`, a `uint64 += int64`) is written with an explicit
  `% 2^64` over `Int`, which is exactly two's-complement conversion of the
  `int64` addend followed by unsigned wraparound addition.
* A `pg_atomic_uint64` cell carries its spinlock `sema` (modelled as a
  `Bool`, `true` = held) and its `value`, matching the struct fields the C
  code accesses.
* The operations are pure state transformers.  Each also records the
  sequence of guard events (`SpinLockAcquire` / `SpinLockRelease`) it
  performs, in program order, so that the lock discipline of the C code is
  part of the embedding rather than erased by it.
* `SpinLockAcquire` busy-waits until the lock is free; in the sequential
  embedding the operations are therefore modelled as executing from the
  point where the acquisition succeeds (the concurrent small-step model
  below makes the blocking explicit: an `acquire` step is enabled only
  when no thread holds the lock).
-/

/-- Guard (spinlock) events performed by an operation, in program order. -/
inductive GuardEv
  | acquire
  | release
deriving DecidableEq

/-- The atomic cell: struct `pg_atomic_uint64` with its embedded spinlock
`sema` (`true` = held) and 64-bit payload `value`. -/
structure pg_atomic_uint64 where
  sema : Bool
  value : Nat
deriving DecidableEq

/-- Result of `pg_atomic_compare_exchange_u64_impl`: the C return value
`ret`, the cell after the call, the out-parameter `*expected` after the
call, and the guard events performed. -/
structure CasResult where
  ret : Bool
  ptr : pg_atomic_uint64
  expected : Nat
  events : List GuardEv
deriving DecidableEq

/-- Result of `pg_atomic_fetch_add_u64_impl`: the returned pre-update value
`oldval`, the cell after the call, and the guard events performed. -/
structure FetchAddResult where
  oldval : Nat
  ptr : pg_atomic_uint64
  events : List GuardEv
deriving DecidableEq

/-- `pg_atomic_init_u64_impl(ptr, val_)`:
`SpinLockInit((slock_t *) &ptr->sema); ptr->value = val_;`
(the `StaticAssertDecl` on `sizeof(ptr->sema)` is a compile-time
declaration with no runtime effect). -/
def pg_atomic_init_u64_impl (_ptr : pg_atomic_uint64) (val_ : Nat) :
    pg_atomic_uint64 :=
  { sema := false, value := val_ }

/-- `pg_atomic_compare_exchange_u64_impl(ptr, expected, newval)`, statement
by statement:
`SpinLockAcquire; ret = ptr->value == *expected; *expected = ptr->value;
if (ret) ptr->value = newval; SpinLockRelease; return ret;`. -/
def pg_atomic_compare_exchange_u64_impl (ptr : pg_atomic_uint64)
    (expected newval : Nat) : CasResult :=
  -- SpinLockAcquire((slock_t *) &ptr->sema);
  let ptr := { ptr with sema := true }
  -- ret = ptr->value == *expected;
  let ret := ptr.value == expected
  -- *expected = ptr->value;
  let expected := ptr.value
  -- if (ret) ptr->value = newval;
  let ptr := if ret then { ptr with value := newval } else ptr
  -- SpinLockRelease((slock_t *) &ptr->sema);
  let ptr := { ptr with sema := false }
  { ret := ret, ptr := ptr, expected := expected,
    events := [GuardEv.acquire, GuardEv.release] }

/-- `pg_atomic_fetch_add_u64_impl(ptr, add_)`:
`SpinLockAcquire; oldval = ptr->value; ptr->value += add_;
SpinLockRelease; return oldval;`.  `add_` is `int64`; the `uint64 +=
int64` store is unsigned wraparound, i.e. `(oldval + add_) mod 2^64`. -/
def pg_atomic_fetch_add_u64_impl (ptr : pg_atomic_uint64) (add_ : Int) :
    FetchAddResult :=
  -- SpinLockAcquire((slock_t *) &ptr->sema);
  let ptr := { ptr with sema := true }
  -- oldval = ptr->value;
  let oldval := ptr.value
  -- ptr->value += add_;
  let ptr := { ptr with value := (((oldval : Int) + add_) % (2 : Int) ^ 64).toNat }
  -- SpinLockRelease((slock_t *) &ptr->sema);
  let ptr := { ptr with sema := false }
  { oldval := oldval, ptr := ptr, events := [GuardEv.acquire, GuardEv.release] }

/-- C1: `pg_atomic_compare_exchange_u64_impl` is a strong CAS: it returns
`true` and stores `newval` exactly when the observed `ptr->value` equals
`*expected`, and it returns `false` exactly when the observed value
genuinely differs from `*expected` — never spuriously. -/
theorem cas_strong_no_spurious_failure (ptr : pg_atomic_uint64)
    (e n : Nat) :
    ((pg_atomic_compare_exchange_u64_impl ptr e n).ret = true ↔
      ptr.value = e) ∧
    (ptr.value = e →
      (pg_atomic_compare_exchange_u64_impl ptr e n).ptr.value = n) ∧
    ((pg_atomic_compare_exchange_u64_impl ptr e n).ret = false ↔
      ptr.value ≠ e) := by
  simp only [pg_atomic_compare_exchange_u64_impl]
  by_cases h : ptr.value = e <;> simp [h]

/-- C1 witness: the strong-CAS characterisation evaluated on a concrete
cell, both on the equal and the unequal side. -/
theorem cas_strong_no_spurious_failure_witness :
    ((pg_atomic_compare_exchange_u64_impl ⟨false, 3⟩ 3 9).ret = true ↔
      (⟨false, 3⟩ : pg_atomic_uint64).value = 3) ∧
    ((⟨false, 3⟩ : pg_atomic_uint64).value = 3 →
      (pg_atomic_compare_exchange_u64_impl ⟨false, 3⟩ 3 9).ptr.value = 9) ∧
    ((pg_atomic_compare_exchange_u64_impl ⟨false, 3⟩ 3 9).ret = false ↔
      (⟨false, 3⟩ : pg_atomic_uint64).value ≠ 3) :=
  cas_strong_no_spurious_failure ⟨false, 3⟩ 3 9

/-- C2: when `pg_atomic_compare_exchange_u64_impl` returns `false`, the
cell's value is unchanged and the out-parameter `*expected` has been
overwritten with the observed `ptr->value`. -/
theorem cas_failure_frame (ptr : pg_atomic_uint64) (e n : Nat)
    (h : (pg_atomic_compare_exchange_u64_impl ptr e n).ret = false) :
    (pg_atomic_compare_exchange_u64_impl ptr e n).ptr.value = ptr.value ∧
    (pg_atomic_compare_exchange_u64_impl ptr e n).expected = ptr.value := by
  simp only [pg_atomic_compare_exchange_u64_impl] at h ⊢
  by_cases hv : ptr.value = e
  · simp [hv] at h
  · simp [hv]

/-- C2 witness: a concrete failing CAS (`value = 3`, `expected = 4`)
leaves the value `3` and reports `3` through `*expected`. -/
theorem cas_failure_frame_witness :
    (pg_atomic_compare_exchange_u64_impl ⟨false, 3⟩ 4 9).ptr.value =
      (⟨false, 3⟩ : pg_atomic_uint64).value ∧
    (pg_atomic_compare_exchange_u64_impl ⟨false, 3⟩ 4 9).expected =
      (⟨false, 3⟩ : pg_atomic_uint64).value :=
  cas_failure_frame ⟨false, 3⟩ 4 9 (by decide)

/-- C10: the store `*expected = ptr->value` is unconditional, but on a
successful CAS the observed value equals the caller's `expected`, so the
out-parameter holds the same value after a successful call as before it. -/
theorem cas_success_preserves_expected (ptr : pg_atomic_uint64) (e n : Nat)
    (h : (pg_atomic_compare_exchange_u64_impl ptr e n).ret = true) :
    (pg_atomic_compare_exchange_u64_impl ptr e n).expected = e := by
  simp only [pg_atomic_compare_exchange_u64_impl] at h ⊢
  by_cases hv : ptr.value = e
  · simp [hv]
  · simp [hv] at h

/-- C10 witness: a concrete successful CAS leaves `*expected` equal to the
value the caller passed in. -/
theorem cas_success_preserves_expected_witness :
    (pg_atomic_compare_exchange_u64_impl ⟨false, 3⟩ 3 9).expected = 3 :=
  cas_success_preserves_expected ⟨false, 3⟩ 3 9 (by decide)

/-- C3: `pg_atomic_fetch_add_u64_impl` returns the pre-update value and
stores `(old + add_) mod 2^64`: unsigned wraparound, no overflow fault
(the operation is total), and the stored value is again a valid
`uint64`. -/
theorem fetch_add_wraparound (ptr : pg_atomic_uint64) (add_ : Int)
    (hv : ptr.value < 2 ^ 64) :
    (pg_atomic_fetch_add_u64_impl ptr add_).oldval = ptr.value ∧
    (pg_atomic_fetch_add_u64_impl ptr add_).oldval < 2 ^ 64 ∧
    ((pg_atomic_fetch_add_u64_impl ptr add_).ptr.value : Int) =
      ((ptr.value : Int) + add_) % (2 : Int) ^ 64 ∧
    (pg_atomic_fetch_add_u64_impl ptr add_).ptr.value < 2 ^ 64 := by
  refine ⟨rfl, hv, ?_, ?_⟩
  · simp only [pg_atomic_fetch_add_u64_impl]
    exact Int.toNat_of_nonneg (Int.emod_nonneg _ (by norm_num))
  · simp only [pg_atomic_fetch_add_u64_impl]
    have hlt : ((ptr.value : Int) + add_) % (2 : Int) ^ 64 < (2 : Int) ^ 64 :=
      Int.emod_lt_of_pos _ (by norm_num)
    omega

/-- C3 witness: the spec's wraparound example, `old = 2^64 - 1`, `d = 1`:
the call returns `2^64 - 1` and the new value is `0`. -/
theorem fetch_add_wraparound_witness :
    (pg_atomic_fetch_add_u64_impl ⟨false, 2 ^ 64 - 1⟩ 1).oldval =
      2 ^ 64 - 1 ∧
    (pg_atomic_fetch_add_u64_impl ⟨false, 2 ^ 64 - 1⟩ 1).ptr.value = 0 := by
  have h := fetch_add_wraparound ⟨false, 2 ^ 64 - 1⟩ 1 (by norm_num)
  refine ⟨h.1, ?_⟩
  have h2 := h.2.2.1
  have : (((2 ^ 64 - 1 : Nat) : Int) + 1) % (2 : Int) ^ 64 = 0 := by
    norm_num
  rw [this] at h2
  exact_mod_cast h2

/-- C4: `pg_atomic_init_u64_impl` leaves the guard unlocked and the value
equal to the initial value; a zero-delta fetch-add read-back returns that
value, and a compare-and-swap probe with a different expected value fails
and reports that value through `*expected` without changing the cell. -/
theorem init_then_read (ptr0 : pg_atomic_uint64) (v e n : Nat)
    (hne : e ≠ v) :
    (pg_atomic_init_u64_impl ptr0 v).sema = false ∧
    (pg_atomic_init_u64_impl ptr0 v).value = v ∧
    (pg_atomic_fetch_add_u64_impl (pg_atomic_init_u64_impl ptr0 v) 0).oldval
      = v ∧
    (pg_atomic_compare_exchange_u64_impl (pg_atomic_init_u64_impl ptr0 v)
      e n).ret = false ∧
    (pg_atomic_compare_exchange_u64_impl (pg_atomic_init_u64_impl ptr0 v)
      e n).expected = v ∧
    (pg_atomic_compare_exchange_u64_impl (pg_atomic_init_u64_impl ptr0 v)
      e n).ptr.value = v := by
  have hve : ¬ (v = e) := fun h => hne h.symm
  refine ⟨rfl, rfl, rfl, ?_, ?_, ?_⟩ <;>
    simp [pg_atomic_init_u64_impl, pg_atomic_compare_exchange_u64_impl, hve]

/-- C4 witness: initialising a previously locked, dirty cell to `5` and
reading it back through a zero-delta fetch-add and a failing CAS probe
with expected value `7`. -/
theorem init_then_read_witness :
    (pg_atomic_init_u64_impl ⟨true, 123⟩ 5).sema = false ∧
    (pg_atomic_init_u64_impl ⟨true, 123⟩ 5).value = 5 ∧
    (pg_atomic_fetch_add_u64_impl (pg_atomic_init_u64_impl ⟨true, 123⟩ 5)
      0).oldval = 5 ∧
    (pg_atomic_compare_exchange_u64_impl
      (pg_atomic_init_u64_impl ⟨true, 123⟩ 5) 7 42).ret = false ∧
    (pg_atomic_compare_exchange_u64_impl
      (pg_atomic_init_u64_impl ⟨true, 123⟩ 5) 7 42).expected = 5 ∧
    (pg_atomic_compare_exchange_u64_impl
      (pg_atomic_init_u64_impl ⟨true, 123⟩ 5) 7 42).ptr.value = 5 :=
  init_then_read ⟨true, 123⟩ 5 7 42 (by decide)

/-- Replay a guard-event trace against a lock that starts in state `b`
(`true` = held).  `none` marks a discipline violation: acquiring a guard
already held by this context (recursive acquisition) or releasing a guard
that is not held. -/
def replayGuard : Bool → List GuardEv → Option Bool
  | b, [] => some b
  | b, GuardEv.acquire :: es => if b then none else replayGuard true es
  | b, GuardEv.release :: es => if b then replayGuard false es else none

/-- C7: both mutating operations acquire the guard exactly once, never
recursively, and release it on their (single) exit path: replaying the
trace from an unlocked guard hits no violation and ends unlocked, and the
cell's guard field is unlocked again after either call. -/
theorem guard_discipline (ptr : pg_atomic_uint64) (e n : Nat) (add_ : Int)
    (h : ptr.sema = false) :
    ((pg_atomic_compare_exchange_u64_impl ptr e n).events.count
        GuardEv.acquire = 1 ∧
      (pg_atomic_compare_exchange_u64_impl ptr e n).events.count
        GuardEv.release = 1 ∧
      replayGuard ptr.sema
        (pg_atomic_compare_exchange_u64_impl ptr e n).events = some false ∧
      (pg_atomic_compare_exchange_u64_impl ptr e n).ptr.sema = false) ∧
    ((pg_atomic_fetch_add_u64_impl ptr add_).events.count
        GuardEv.acquire = 1 ∧
      (pg_atomic_fetch_add_u64_impl ptr add_).events.count
        GuardEv.release = 1 ∧
      replayGuard ptr.sema
        (pg_atomic_fetch_add_u64_impl ptr add_).events = some false ∧
      (pg_atomic_fetch_add_u64_impl ptr add_).ptr.sema = false) := by
  rw [h]
  refine ⟨⟨?_, ?_, ?_, ?_⟩, rfl, rfl, rfl, rfl⟩ <;>
    simp [pg_atomic_compare_exchange_u64_impl, replayGuard]

/-- C7 witness: the guard discipline evaluated on a concrete unlocked
cell, for a CAS and a fetch-add. -/
theorem guard_discipline_witness :
    ((pg_atomic_compare_exchange_u64_impl ⟨false, 3⟩ 3 9).events.count
        GuardEv.acquire = 1 ∧
      (pg_atomic_compare_exchange_u64_impl ⟨false, 3⟩ 3 9).events.count
        GuardEv.release = 1 ∧
      replayGuard (⟨false, 3⟩ : pg_atomic_uint64).sema
        (pg_atomic_compare_exchange_u64_impl ⟨false, 3⟩ 3 9).events =
        some false ∧
      (pg_atomic_compare_exchange_u64_impl ⟨false, 3⟩ 3 9).ptr.sema =
        false) ∧
    ((pg_atomic_fetch_add_u64_impl ⟨false, 3⟩ 2).events.count
        GuardEv.acquire = 1 ∧
      (pg_atomic_fetch_add_u64_impl ⟨false, 3⟩ 2).events.count
        GuardEv.release = 1 ∧
      replayGuard (⟨false, 3⟩ : pg_atomic_uint64).sema
        (pg_atomic_fetch_add_u64_impl ⟨false, 3⟩ 2).events = some false ∧
      (pg_atomic_fetch_add_u64_impl ⟨false, 3⟩ 2).ptr.sema = false) :=
  guard_discipline ⟨false, 3⟩ 3 9 2 rfl

/-- System calls a barrier may issue.  `kill pid sig` is the POSIX
`kill(pid, sig)` call; its return value is discarded by the caller
(`(void) kill(...)`), so it is not part of the event. -/
inductive SyscallEv
  | kill (pid : Int) (sig : Nat)
deriving DecidableEq

/-- Shared memory holding the atomic cells, indexed by address. -/
def CellMem : Type := Nat → pg_atomic_uint64

/-- `pg_spinlock_barrier()`: the body is `(void) kill(PostmasterPid, 0);`.
`PostmasterPid` is external process-identity state (a global set at
startup to the postmaster's pid), so it is a parameter here.  The body
reads or writes no atomic cell, so shared memory is returned unchanged;
the only effect is the single `kill` system call, whose outcome is
discarded. -/
def pg_spinlock_barrier (PostmasterPid : Int) (mem : CellMem) :
    CellMem × List SyscallEv :=
  (mem, [SyscallEv.kill PostmasterPid 0])

/-- `pg_extern_compiler_barrier()`: the body is `/* do nothing */` — no
cell access, no system call. -/
def pg_extern_compiler_barrier (mem : CellMem) : CellMem × List SyscallEv :=
  (mem, [])

/-- C5 counterexample: the claim says the barrier's one system call
targets the current process itself.  Take `PostmasterPid = 1` while the
calling process's pid is `2` (a backend child of the postmaster): the
issued call is `kill(1, 0)`, not `kill(2, 0)` — the target is the
postmaster, not the caller. -/
theorem barrier_target_counterexample :
    ¬ ((pg_spinlock_barrier 1 (fun _ => ⟨false, 0⟩)).2 =
      [SyscallEv.kill 2 0]) := by
  decide

/-- C5 (amended): `pg_spinlock_barrier` issues exactly one system call,
`kill(PostmasterPid, 0)` — an existence probe of the postmaster process —
and discards its outcome; the target is the current process only when the
caller is the postmaster itself. -/
theorem barrier_single_syscall_postmaster (PostmasterPid : Int)
    (mem : CellMem) :
    (pg_spinlock_barrier PostmasterPid mem).2 =
      [SyscallEv.kill PostmasterPid 0] ∧
    (pg_spinlock_barrier PostmasterPid mem).2.length = 1 := by
  exact ⟨rfl, rfl⟩

/-- C6: with no concurrent writers, neither barrier changes any cell: the
whole cell memory — every cell's `value` and guard — is identical before
and after the call, and the compiler barrier performs no work at all. -/
theorem barriers_preserve_cells (PostmasterPid : Int) (mem : CellMem)
    (addr : Nat) :
    (pg_spinlock_barrier PostmasterPid mem).1 = mem ∧
    (pg_spinlock_barrier PostmasterPid mem).1 addr = mem addr ∧
    (pg_extern_compiler_barrier mem).1 = mem ∧
    (pg_extern_compiler_barrier mem).1 addr = mem addr ∧
    (pg_extern_compiler_barrier mem).2 = [] := by
  exact ⟨rfl, rfl, rfl, rfl, rfl⟩

/-- An operation an execution context may invoke on the shared cell. -/
inductive Op
  | cas (expected newval : Nat)
  | fadd (add_ : Int)
deriving DecidableEq

/-- The observable outcome of one call: for CAS the returned `bool` and
the final contents of `*expected`; for fetch-add the returned pre-update
value. -/
inductive OpResult
  | casR (ret : Bool) (expectedOut : Nat)
  | faddR (oldval : Nat)
deriving DecidableEq

/-- The critical-section body of one call, run while the guard is held,
derived directly from the sequential embeddings above: it maps the shared
value to the call's observable outcome and the new shared value. -/
def execOp (v : Nat) : Op → OpResult × Nat
  | Op.cas e n =>
      let r := pg_atomic_compare_exchange_u64_impl ⟨true, v⟩ e n
      (OpResult.casR r.ret r.expected, r.ptr.value)
  | Op.fadd d =>
      let r := pg_atomic_fetch_add_u64_impl ⟨true, v⟩ d
      (OpResult.faddR r.oldval, r.ptr.value)

/-- Control state of one execution context performing one call: not yet
past `SpinLockAcquire`; holding the guard with the body still to run;
holding the guard with the body done (about to `SpinLockRelease`);
returned with its result. -/
inductive TState
  | ready (op : Op)
  | locked (op : Op)
  | unlocking (res : OpResult)
  | done (res : OpResult)
deriving DecidableEq

/-- Whether a context has returned. -/
def TState.isDone : TState → Bool
  | TState.done _ => true
  | _ => false

/-- A configuration of the concurrent system: the shared `value`, the
spinlock holder (`none` = free), and each context's control state. -/
structure Config where
  value : Nat
  lock : Option Nat
  ts : Nat → TState

/-- One small step of context `i`.  `SpinLockAcquire` is a busy-wait: it
takes effect only when the lock is free, and a context that finds the
lock held spins (no state change).  The body and `SpinLockRelease` are
enabled only for the holder, which is the only context that can be in the
`locked`/`unlocking` states. -/
def step (c : Config) (i : Nat) : Config :=
  match c.ts i with
  | TState.ready op =>
      match c.lock with
      | none => { value := c.value, lock := some i,
                  ts := Function.update c.ts i (TState.locked op) }
      | some _ => c
  | TState.locked op =>
      { value := (execOp c.value op).2, lock := c.lock,
        ts := Function.update c.ts i (TState.unlocking (execOp c.value op).1) }
  | TState.unlocking r =>
      { value := c.value, lock := none,
        ts := Function.update c.ts i (TState.done r) }
  | TState.done _ => c

/-- Run a schedule: at each step the scheduler picks a context. -/
def run (c : Config) : List Nat → Config
  | [] => c
  | i :: s => run (step c i) s

/-- Initial configuration: every context is about to perform its call on
a freshly initialised cell (lock free, value `v0`). -/
def initConfig (ops : Nat → Op) (v0 : Nat) : Config :=
  { value := v0, lock := none, ts := fun i => TState.ready (ops i) }

/-- Serial (one-at-a-time) execution of the calls of the listed contexts,
in list order: the final value, and each listed context's result. -/
def serialRun (ops : Nat → Op) : Nat → List Nat → Nat × (Nat → Option OpResult)
  | v, [] => (v, fun _ => none)
  | v, t :: rest =>
      (((serialRun ops (execOp v (ops t)).2 rest)).1,
        fun i => if i = t then some (execOp v (ops t)).1
          else (serialRun ops (execOp v (ops t)).2 rest).2 i)

theorem serialRun_not_mem (ops : Nat → Op) (l : List Nat) (i : Nat)
    (h : i ∉ l) : ∀ v, (serialRun ops v l).2 i = none := by
  induction l with
  | nil => intro v; simp [serialRun]
  | cons t rest ih =>
      intro v
      simp only [List.mem_cons, not_or] at h
      simp [serialRun, h.1, ih h.2]

theorem serialRun_snoc_fst (ops : Nat → Op) (l : List Nat) (j : Nat) :
    ∀ v, (serialRun ops v (l ++ [j])).1 =
      (execOp (serialRun ops v l).1 (ops j)).2 := by
  induction l with
  | nil => intro v; simp [serialRun]
  | cons t rest ih => intro v; simp [serialRun, ih]

theorem serialRun_snoc_mem (ops : Nat → Op) (l : List Nat) (j i : Nat)
    (r : OpResult) :
    ∀ v, (serialRun ops v l).2 i = some r →
      (serialRun ops v (l ++ [j])).2 i = some r := by
  induction l with
  | nil => intro v h; simp [serialRun] at h
  | cons t rest ih =>
      intro v h
      simp only [serialRun, List.cons_append] at h ⊢
      by_cases hit : i = t
      · simpa [hit] using h
      · simp only [hit, if_false] at h ⊢
        exact ih (execOp v (ops t)).2 h

theorem serialRun_snoc_last (ops : Nat → Op) (l : List Nat) (j : Nat)
    (h : j ∉ l) :
    ∀ v, (serialRun ops v (l ++ [j])).2 j =
      some (execOp (serialRun ops v l).1 (ops j)).1 := by
  induction l with
  | nil => intro v; simp [serialRun]
  | cons t rest ih =>
      intro v
      simp only [List.mem_cons, not_or] at h
      simp [serialRun, h.1, ih h.2]

/-- Reachability invariant of the interleaved system, relating a
configuration to the list `order` of contexts that have acquired the
guard so far, in acquisition order.  The guard is either free — every
context in `order` has completed, with the value and results of the
serial execution of `order` — or held by the last element `j` of `order`,
which is mid-call (body pending, or body done and release pending) while
every earlier context has completed its serial result. -/
inductive SysInv (ops : Nat → Op) (v0 : Nat) : Config → List Nat → Prop
  | free (c : Config) (order : List Nat)
      (hlock : c.lock = none)
      (hnd : order.Nodup)
      (hready : ∀ i, i ∉ order → c.ts i = TState.ready (ops i))
      (hval : c.value = (serialRun ops v0 order).1)
      (hres : ∀ i ∈ order, ∃ r, (serialRun ops v0 order).2 i = some r ∧
        c.ts i = TState.done r) :
      SysInv ops v0 c order
  | heldL (c : Config) (prev : List Nat) (j : Nat)
      (hlock : c.lock = some j)
      (hnd : (prev ++ [j]).Nodup)
      (hready : ∀ i, i ∉ prev ++ [j] → c.ts i = TState.ready (ops i))
      (hj : c.ts j = TState.locked (ops j))
      (hval : c.value = (serialRun ops v0 prev).1)
      (hres : ∀ i ∈ prev, ∃ r, (serialRun ops v0 prev).2 i = some r ∧
        c.ts i = TState.done r) :
      SysInv ops v0 c (prev ++ [j])
  | heldU (c : Config) (prev : List Nat) (j : Nat) (r : OpResult)
      (hlock : c.lock = some j)
      (hnd : (prev ++ [j]).Nodup)
      (hready : ∀ i, i ∉ prev ++ [j] → c.ts i = TState.ready (ops i))
      (hj : c.ts j = TState.unlocking r)
      (hjr : (serialRun ops v0 (prev ++ [j])).2 j = some r)
      (hval : c.value = (serialRun ops v0 (prev ++ [j])).1)
      (hres : ∀ i ∈ prev, ∃ r2, (serialRun ops v0 prev).2 i = some r2 ∧
        c.ts i = TState.done r2) :
      SysInv ops v0 c (prev ++ [j])

theorem step_inv (ops : Nat → Op) (v0 : Nat) (c : Config)
    (order : List Nat) (i : Nat) (h : SysInv ops v0 c order) :
    ∃ order2, (order2 = order ∨ order2 = order ++ [i]) ∧
      SysInv ops v0 (step c i) order2 := by
  cases h with
  | free o2 hlock hnd hready hval hres =>
      by_cases hi : i ∈ order
      · obtain ⟨r, hsr, hdone⟩ := hres i hi
        have hstep : step c i = c := by simp [step, hdone]
        refine ⟨order, Or.inl rfl, ?_⟩
        rw [hstep]
        exact SysInv.free c order hlock hnd hready hval hres
      · have hri := hready i hi
        have hstep : step c i =
            { value := c.value, lock := some i,
              ts := Function.update c.ts i (TState.locked (ops i)) } := by
          simp [step, hri, hlock]
        refine ⟨order ++ [i], Or.inr rfl, ?_⟩
        rw [hstep]
        refine SysInv.heldL _ order i rfl ?_ ?_ ?_ hval ?_
        · exact hnd.append (List.nodup_singleton i)
            (fun a ha hai => hi ((List.mem_singleton.mp hai) ▸ ha))
        · intro k hk
          have hk1 : k ∉ order := fun hm => hk (List.mem_append_left _ hm)
          have hk2 : k ≠ i := fun he =>
            hk (List.mem_append_right _ (by simp [he]))
          exact (Function.update_noteq hk2 _ c.ts).trans (hready k hk1)
        · exact Function.update_same i _ c.ts
        · intro k hk
          obtain ⟨r, hsr, hdone⟩ := hres k hk
          have hk2 : k ≠ i := fun he => hi (he ▸ hk)
          exact ⟨r, hsr, (Function.update_noteq hk2 _ c.ts).trans hdone⟩
  | heldL prev j hlock hnd hready hj hval hres =>
      have hjp : j ∉ prev := fun hm =>
        (List.disjoint_of_nodup_append hnd) hm (by simp)
      by_cases hij : i = j
      · subst hij
        have hstep : step c i =
            { value := (execOp c.value (ops i)).2, lock := c.lock,
              ts := Function.update c.ts i
                (TState.unlocking (execOp c.value (ops i)).1) } := by
          simp [step, hj]
        refine ⟨prev ++ [i], Or.inl rfl, ?_⟩
        rw [hstep]
        refine SysInv.heldU _ prev i (execOp c.value (ops i)).1 hlock hnd
          ?_ ?_ ?_ ?_ ?_
        · intro k hk
          have hk2 : k ≠ i := fun he =>
            hk (List.mem_append_right _ (by simp [he]))
          exact (Function.update_noteq hk2 _ c.ts).trans (hready k hk)
        · exact Function.update_same i _ c.ts
        · rw [serialRun_snoc_last ops prev i hjp v0, hval]
        · show (execOp c.value (ops i)).2 = (serialRun ops v0 (prev ++ [i])).1
          rw [serialRun_snoc_fst ops prev i v0, hval]
        · intro k hk
          obtain ⟨r2, hsr, hdone⟩ := hres k hk
          have hk2 : k ≠ i := fun he => hjp (he ▸ hk)
          exact ⟨r2, hsr, (Function.update_noteq hk2 _ c.ts).trans hdone⟩
      · by_cases hip : i ∈ prev
        · obtain ⟨r2, hsr, hdone⟩ := hres i hip
          have hstep : step c i = c := by simp [step, hdone]
          refine ⟨prev ++ [j], Or.inl rfl, ?_⟩
          rw [hstep]
          exact SysInv.heldL c prev j hlock hnd hready hj hval hres
        · have hio : i ∉ prev ++ [j] := by
            simp only [List.mem_append, List.mem_singleton]
            exact fun hm => hm.elim hip hij
          have hri := hready i hio
          have hstep : step c i = c := by simp [step, hri, hlock]
          refine ⟨prev ++ [j], Or.inl rfl, ?_⟩
          rw [hstep]
          exact SysInv.heldL c prev j hlock hnd hready hj hval hres
  | heldU prev j r hlock hnd hready hj hjr hval hres =>
      have hjp : j ∉ prev := fun hm =>
        (List.disjoint_of_nodup_append hnd) hm (by simp)
      by_cases hij : i = j
      · subst hij
        have hstep : step c i =
            { value := c.value, lock := none,
              ts := Function.update c.ts i (TState.done r) } := by
          simp [step, hj]
        refine ⟨prev ++ [i], Or.inl rfl, ?_⟩
        rw [hstep]
        refine SysInv.free _ (prev ++ [i]) rfl hnd ?_ hval ?_
        · intro k hk
          have hk2 : k ≠ i := fun he =>
            hk (List.mem_append_right _ (by simp [he]))
          exact (Function.update_noteq hk2 _ c.ts).trans (hready k hk)
        · intro k hk
          rcases List.mem_append.mp hk with hkp | hki
          · obtain ⟨r2, hsr, hdone⟩ := hres k hkp
            have hk2 : k ≠ i := fun he => hjp (he ▸ hkp)
            exact ⟨r2, serialRun_snoc_mem ops prev i k r2 v0 hsr,
              (Function.update_noteq hk2 _ c.ts).trans hdone⟩
          · have hki2 : k = i := List.mem_singleton.mp hki
            subst hki2
            exact ⟨r, hjr, Function.update_same k _ c.ts⟩
      · by_cases hip : i ∈ prev
        · obtain ⟨r2, hsr, hdone⟩ := hres i hip
          have hstep : step c i = c := by simp [step, hdone]
          refine ⟨prev ++ [j], Or.inl rfl, ?_⟩
          rw [hstep]
          exact SysInv.heldU c prev j r hlock hnd hready hj hjr hval hres
        · have hio : i ∉ prev ++ [j] := by
            simp only [List.mem_append, List.mem_singleton]
            exact fun hm => hm.elim hip hij
          have hri := hready i hio
          have hstep : step c i = c := by simp [step, hri, hlock]
          refine ⟨prev ++ [j], Or.inl rfl, ?_⟩
          rw [hstep]
          exact SysInv.heldU c prev j r hlock hnd hready hj hjr hval hres

theorem run_inv (ops : Nat → Op) (v0 : Nat) (s : List Nat) :
    ∀ (c : Config) (order : List Nat), SysInv ops v0 c order →
      ∃ order2, SysInv ops v0 (run c s) order2 ∧
        ∀ x ∈ order2, x ∈ order ∨ x ∈ s := by
  induction s with
  | nil =>
      intro c order h
      exact ⟨order, h, fun x hx => Or.inl hx⟩
  | cons i s ih =>
      intro c order h
      obtain ⟨o1, ho1, hinv1⟩ := step_inv ops v0 c order i h
      obtain ⟨o2, hinv2, hmem⟩ := ih (step c i) o1 hinv1
      refine ⟨o2, by simpa [run] using hinv2, ?_⟩
      intro x hx
      rcases hmem x hx with hx1 | hx2
      · rcases ho1 with rfl | rfl
        · exact Or.inl hx1
        · rcases List.mem_append.mp hx1 with h1 | h1
          · exact Or.inl h1
          · exact Or.inr (by simp [List.mem_singleton.mp h1])
      · exact Or.inr (List.mem_cons_of_mem _ hx2)

theorem initConfig_inv (ops : Nat → Op) (v0 : Nat) :
    SysInv ops v0 (initConfig ops v0) [] := by
  refine SysInv.free _ [] rfl List.nodup_nil (fun i _ => rfl) rfl ?_
  intro i hi
  exact absurd hi (List.not_mem_nil i)

/-- C8: linearizability of the lock-based emulation.  For any mix of
calls `ops` by independent contexts `0..n-1`, any interleaved schedule
`s` of their fine-grained steps that completes every call produces a
final value and per-call results identical to the serial execution of the
calls in some single order — namely the order in which the contexts
acquired the cell's guard. -/
theorem linearizable (ops : Nat → Op) (v0 n : Nat) (s : List Nat)
    (hs : ∀ i ∈ s, i < n)
    (hdone : ∀ i, i < n →
      ((run (initConfig ops v0) s).ts i).isDone = true) :
    ∃ order : List Nat, order.Perm (List.range n) ∧
      (run (initConfig ops v0) s).value = (serialRun ops v0 order).1 ∧
      ∀ i r, (run (initConfig ops v0) s).ts i = TState.done r →
        (serialRun ops v0 order).2 i = some r := by
  obtain ⟨order, hinv, hmem⟩ :=
    run_inv ops v0 s (initConfig ops v0) [] (initConfig_inv ops v0)
  have hordn : ∀ x ∈ order, x < n := by
    intro x hx
    rcases hmem x hx with h | h
    · exact absurd h (List.not_mem_nil x)
    · exact hs x h
  cases hinv with
  | free o2 hlock hnd hready hval hres =>
      refine ⟨order, ?_, hval, ?_⟩
      · rw [List.perm_ext_iff_of_nodup hnd (List.nodup_range n)]
        intro a
        rw [List.mem_range]
        constructor
        · exact hordn a
        · intro ha
          by_contra hna
          have := hready a hna
          have hd := hdone a ha
          rw [this] at hd
          simp [TState.isDone] at hd
      · intro i r hdi
        by_cases hio : i ∈ order
        · obtain ⟨r2, hsr, hdone2⟩ := hres i hio
          rw [hdi] at hdone2
          cases hdone2
          exact hsr
        · rw [hready i hio] at hdi
          cases hdi
  | heldL prev j hlock hnd hready hj hval hres =>
      have hjn : j < n := hordn j (List.mem_append_right _ (by simp))
      have hd := hdone j hjn
      rw [hj] at hd
      simp [TState.isDone] at hd
  | heldU prev j r hlock hnd hready hj hjr hval hres =>
      have hjn : j < n := hordn j (List.mem_append_right _ (by simp))
      have hd := hdone j hjn
      rw [hj] at hd
      simp [TState.isDone] at hd

/-- C8 witness: context 0 performs `fetch_add(1)` and context 1 a CAS
expecting `0` with new value `5`, under a schedule in which context 0
spins twice on the held guard before acquiring it; every call completes,
so the run is explained by a serial order of the two calls. -/
theorem linearizable_witness :
    ∃ order : List Nat, order.Perm (List.range 2) ∧
      (run (initConfig (fun i => if i = 0 then Op.fadd 1 else Op.cas 0 5) 0)
        [1, 0, 1, 0, 1, 0, 0, 0]).value =
        (serialRun (fun i => if i = 0 then Op.fadd 1 else Op.cas 0 5) 0
          order).1 ∧
      ∀ i r,
        (run (initConfig (fun i => if i = 0 then Op.fadd 1 else Op.cas 0 5) 0)
          [1, 0, 1, 0, 1, 0, 0, 0]).ts i = TState.done r →
        (serialRun (fun i => if i = 0 then Op.fadd 1 else Op.cas 0 5) 0
          order).2 i = some r :=
  linearizable (fun i => if i = 0 then Op.fadd 1 else Op.cas 0 5) 0 2
    [1, 0, 1, 0, 1, 0, 0, 0] (by decide) (by decide)
